import Mathlib

/-!
Verification of the staleness-bounded parameter-server scheduler of
DistributedSGDRay (`src/MNIST/mnist.py`) and of its parameter server,
worker, and data-loading components.

The scheduler state and the per-round transition are a shallow embedding
of the driver loop at `mnist.py` lines 166-199:

* `Sched.counts`  models `num_worker_updates` (a list indexed by worker);
* `Sched.pending` models the `gradients` dict mapping an in-flight (or
  re-queued) object ref to its worker;
* `Sched.nextId`  is a fresh-name counter for object refs;
* `Sched.history` is a ghost log recording, per round, which handles were
  classified usable (`used`, the ones passed to `apply_gradients`) and
  which unusable (`unusable`).

Completion nondeterminism of `ray.wait` is modelled by letting the round
consume an arbitrary duplicate-free list of pending handles, classifying
each in order until the quorum `M = num_workers_ps_update` of usable
handles is reached, exactly as the `while`/`for` loop at lines 180-191.
-/

namespace DistSGD

/-- A gradient object ref held by the driver: `hid` is the ref identity,
`wid` the worker that computed it (the value stored in the `gradients`
dict).  `dc` is a ghost field recording the worker's `update_count` at the
time the request was dispatched (after the dispatching round's increment);
it takes no part in the dynamics. -/
structure Handle where
  hid : Nat
  wid : Nat
  dc : Nat
deriving DecidableEq, Repr, Inhabited

/-- Ghost log of one round: the handles put into `used_gradients` (passed
to `apply_gradients`) and those put into `unusable_gradients`. -/
structure RoundLog where
  used : List Handle
  unusable : List Handle
deriving DecidableEq, Repr, Inhabited

/-- Driver state of the training loop of `mnist.py`. -/
structure Sched where
  counts : List Nat
  pending : List Handle
  nextId : Nat
  history : List RoundLog
deriving DecidableEq, Repr, Inhabited

/-- `num_worker_updates[w]` (0 when `w` is out of range). -/
def getCount (cs : List Nat) (w : Nat) : Nat := cs.getD w 0

/-- `num_worker_updates[w] += 1`. -/
def incr (cs : List Nat) (w : Nat) : List Nat := cs.set w (getCount cs w + 1)

/-- `min(num_worker_updates.values())` (0 for the empty list, which does
not arise in a run). -/
def minCount : List Nat → Nat
  | [] => 0
  | [c] => c
  | c :: c2 :: cs => min c (minCount (c2 :: cs))

/-- `max(num_worker_updates.values())`, used to state the skew bound. -/
def maxCount : List Nat → Nat
  | [] => 0
  | [c] => c
  | c :: c2 :: cs => max c (maxCount (c2 :: cs))

/-- The staleness test of line 188 of `mnist.py`:
`worker_updates - min_worker_updates <= stale_tolerance`, over the
(unbounded, signed) Python integers. -/
def usable (S : Nat) (cs : List Nat) (minc : Nat) (h : Handle) : Bool :=
  decide ((getCount cs h.wid : Int) - (minc : Int) ≤ (S : Int))

/-- The collection loop of lines 180-191: consume completed handles in
the given order, moving each into `used_gradients` or
`unusable_gradients` according to the staleness test, stopping as soon as
the quorum is full (`q` is the remaining quota `M - len(used_gradients)`).
Returns `(used, unusable, not consumed)`. -/
def classifyLoop (S : Nat) (cs : List Nat) (minc : Nat) :
    Nat → List Handle → List Handle × List Handle × List Handle
  | 0, hs => ([], [], hs)
  | _ + 1, [] => ([], [], [])
  | q + 1, h :: rest =>
    if usable S cs minc h then
      (h :: (classifyLoop S cs minc q rest).1, (classifyLoop S cs minc q rest).2)
    else
      ((classifyLoop S cs minc (q + 1) rest).1,
       h :: (classifyLoop S cs minc (q + 1) rest).2.1,
       (classifyLoop S cs minc (q + 1) rest).2.2)

/-- Line 198: one fresh compute request per worker whose gradient was just
used, with consecutive fresh object refs.  The ghost `dc` field records
the worker's count as of the end of this round (its pre-round count plus
the increment of line 199). -/
def dispatch (cs : List Nat) (nid : Nat) : List Handle → List Handle
  | [] => []
  | h :: rest => ⟨nid, h.wid, getCount cs h.wid + 1⟩ :: dispatch cs (nid + 1) rest

/-- One iteration of the `for i in range(total_iterations)` loop
(lines 175-199), parameterised by the order `obs` in which completed
handles are observed and consumed.  `obs` must be a duplicate-free list of
pending handles (`ray.wait` reports each outstanding ref at most once);
the step succeeds when the quorum `M` of usable gradients is reached. -/
def roundStep (M S : Nat) (obs : List Handle) (st : Sched) : Option Sched :=
  if obs.Nodup ∧ ∀ g ∈ obs, g ∈ st.pending then
    let r := classifyLoop S st.counts (minCount st.counts) M obs
    if r.1.length = M then
      some { counts := r.1.foldl (fun cs g => incr cs g.wid) st.counts
             pending := st.pending.filter (fun g => decide (g ∉ r.1 ∧ g ∉ r.2.1))
                          ++ r.2.1 ++ dispatch st.counts st.nextId r.1
             nextId := st.nextId + r.1.length
             history := st.history ++ [⟨r.1, r.2.1⟩] }
    else none
  else none

/-- The driver state after lines 166-171: every worker dispatched once,
all counts zero. -/
def initSched (n : Nat) : Sched :=
  { counts := List.replicate n 0
    pending := (List.range n).map (fun i => ⟨i, i, 0⟩)
    nextId := n
    history := [] }

/-- A whole run: fold the round step over a list of per-round observation
orders. -/
def run (M S n : Nat) (rounds : List (List Handle)) : Option Sched :=
  rounds.foldlM (fun st obs => roundStep M S obs st) (initSched n)

/-- The states reachable after `k` rounds of the training loop with
quorum `M`, staleness tolerance `S` and `n` workers. -/
inductive Reach (M S n : Nat) : Nat → Sched → Prop where
  | init : Reach M S n 0 (initSched n)
  | step {k st obs st2} : Reach M S n k st → roundStep M S obs st = some st2 →
      Reach M S n (k + 1) st2

/-- Line 154 of `mnist.py`. -/
def iterations : Nat := 500

/-- Line 171: `total_iterations = (iterations * num_workers) // num_workers_ps_update`. -/
def totalIterations (numWorkers numWorkersPsUpdate : Nat) : Nat :=
  iterations * numWorkers / numWorkersPsUpdate

/-- All gradient ids ever passed to `apply_gradients`, in order. -/
def usedIds (st : Sched) : List Nat :=
  (st.history.flatMap RoundLog.used).map Handle.hid

/-- Closed-form state of the run with one worker, quorum 1, tolerance 0,
after `k` rounds; used to exhibit concrete reachable states. -/
def witState (k : Nat) : Sched :=
  ⟨[k], [⟨k, 0, k⟩], k + 1, (List.range k).map (fun i => ⟨[⟨i, 0, i⟩], []⟩)⟩

/-- Observation orders for a 3-round run with 2 workers, quorum 1,
tolerance 0: worker 0 finishes first twice in a row, so its second
gradient (ref id 2) is observed while it is one update ahead. -/
def cexRounds : List (List Handle) :=
  [[⟨0, 0, 0⟩], [⟨2, 0, 1⟩, ⟨1, 1, 0⟩], [⟨2, 0, 1⟩]]

/-- The final state of that run. -/
def cexFinal : Sched := (run 1 0 2 cexRounds).getD (initSched 2)

/-!
Embedding of the `ParameterServer` actor (`mnist.py` lines 87-121).
Tensors are idealised as rational vectors (numpy float arrays in the
source); a worker payload is the list returned by
`ConvNet.get_gradients`, one entry per model parameter, `none` standing
for Python `None` (`p.grad is None`).
-/

abbrev Tensor := List Rat

abbrev Payload := List (Option Tensor)

/-- Errors raised by the parameter server: the two explicit
`RuntimeError`s of `__init__`/`apply_gradients`, and errors raised inside
numpy when stacking or reducing `None` entries or mismatched shapes. -/
inductive PSError where
  | invalidUpdateRule (rule : String)
  | invalidGradRule (rule : String)
  | numpyError
deriving DecidableEq, Repr

structure PSState where
  gradRule : String
  updateRule : String
  lr : Rat
  params : List Tensor
  version : Nat
deriving DecidableEq, Repr

def validUpdateRules : List String := ["sgd", "adam", "adagrad"]

def validGradRules : List String := ["sum", "mean"]

/-- `ParameterServer.__init__` (lines 89-99): only the update rule is
validated at construction; the gradient rule is stored unchecked.  The
initial parameters (the fresh `ConvNet()` weights) are a parameter of the
model.  `version` is the spec's Version counter, a ghost index of the
parameter snapshot that advances once per successful apply, starting
at 0. -/
def psInit (lr : Rat) (gradRule updateRule : String) (params0 : List Tensor) :
    Except PSError PSState :=
  if updateRule = "sgd" ∨ updateRule = "adam" ∨ updateRule = "adagrad" then
    Except.ok ⟨gradRule, updateRule, lr, params0, 0⟩
  else
    Except.error (PSError.invalidUpdateRule updateRule)

/-- Length of Python `zip(*gradients)` — the shortest payload length. -/
def minLen : List Payload → Nat
  | [] => 0
  | [p] => p.length
  | p :: p2 :: ps => min p.length (minLen (p2 :: ps))

/-- The tuple `gradient_zip` at position `i`: the `i`-th entry of every
payload (only used for `i < minLen gs`, where the default is never
taken). -/
def column (gs : List Payload) (i : Nat) : List (Option Tensor) :=
  gs.map (fun g => g.getD i none)

/-- Python `zip(*gradients)` as the list of its tuples. -/
def columns (gs : List Payload) : List (List (Option Tensor)) :=
  (List.range (minLen gs)).map (column gs)

/-- Elementwise sum of equally-shaped tensors. -/
def sumTensors : List Tensor → Tensor
  | [] => []
  | t :: ts => ts.foldl (fun acc u => acc.zipWith (· + ·) u) t

/-- `np.stack(gradient_zip).sum(axis=0)` (resp. `.mean(axis=0)`) on one
tensor position.  numpy does not skip `None` ("absent") entries: stacking
a `None` together with real arrays, or adding two or more `None`s inside
the reduction, raises; only the singleton stack `[None]` reduces to `None`
under `sum` (and `mean` then fails on `None / 1`).  Stacking also
requires equal shapes. -/
def stackAgg (isMean : Bool) (col : List (Option Tensor)) : Except PSError (Option Tensor) :=
  match col with
  | [] => Except.error PSError.numpyError
  | [some t] => Except.ok (some t)
  | [none] => if isMean then Except.error PSError.numpyError else Except.ok none
  | _ :: _ :: _ =>
    if col.any (fun g => g.isNone) then Except.error PSError.numpyError
    else
      let ts := col.reduceOption
      if ts.all (fun t => t.length = (ts.headD []).length) then
        Except.ok (some (if isMean then (sumTensors ts).map (fun v => v / (ts.length : Rat))
                         else sumTensors ts))
      else Except.error PSError.numpyError

def mapExcept {α β : Type} (f : α → Except PSError β) : List α → Except PSError (List β)
  | [] => Except.ok []
  | a :: l =>
    match f a with
    | Except.error e => Except.error e
    | Except.ok b =>
      match mapExcept f l with
      | Except.error e => Except.error e
      | Except.ok bs => Except.ok (b :: bs)

/-- Lines 102-113 of `apply_gradients`: dispatch on the stored gradient
rule — raising only now if it is unknown — and aggregate the payloads
elementwise. -/
def aggregate (rule : String) (gs : List Payload) : Except PSError (List (Option Tensor)) :=
  if rule = "sum" then mapExcept (stackAgg false) (columns gs)
  else if rule = "mean" then mapExcept (stackAgg true) (columns gs)
  else Except.error (PSError.invalidGradRule rule)

/-- `torch.optim.SGD` step (momentum 0) after
`zero_grad`/`set_gradients`: a parameter whose position carries a
gradient moves by `-lr * grad`; a position whose entry is `None` is
skipped by `set_gradients` and left unchanged by the optimizer. -/
def sgdStep (lr : Rat) : List Tensor → List (Option Tensor) → List Tensor
  | ps, [] => ps
  | [], _ => []
  | p :: ps, g? :: gs =>
    (match g? with
     | none => p
     | some g => p.zipWith (fun a b => a - lr * b) g) :: sgdStep lr ps gs

/-- `apply_gradients` (lines 101-118): check the gradient rule, aggregate
elementwise, run the optimizer step, advance the ghost Version by one and
hand out the new weights.  The numeric updates of the Adam and Adagrad
optimizers involve floating-point square roots and hidden accumulator
state; no claim depends on their values, so they enter the model as
arbitrary functions `stepAdam`, `stepAdagrad` over which every theorem
quantifies. -/
def psApply (stepAdam stepAdagrad : Rat → List Tensor → List (Option Tensor) → List Tensor)
    (ps : PSState) (gs : List Payload) : Except PSError PSState :=
  match aggregate ps.gradRule gs with
  | Except.error e => Except.error e
  | Except.ok summed =>
    let newParams :=
      if ps.updateRule = "sgd" then sgdStep ps.lr ps.params summed
      else if ps.updateRule = "adam" then stepAdam ps.lr ps.params summed
      else stepAdagrad ps.lr ps.params summed
    Except.ok { ps with params := newParams, version := ps.version + 1 }

/-- Parameter snapshots observed after each successive apply call. -/
def psTrace (stepAdam stepAdagrad : Rat → List Tensor → List (Option Tensor) → List Tensor)
    (ps : PSState) : List (List Payload) → Except PSError (List (List Tensor))
  | [] => Except.ok []
  | gs :: rest =>
    match psApply stepAdam stepAdagrad ps gs with
    | Except.error e => Except.error e
    | Except.ok ps2 =>
      match psTrace stepAdam stepAdagrad ps2 rest with
      | Except.error e => Except.error e
      | Except.ok tl => Except.ok (ps2.params :: tl)

/-- `DataWorker.compute_gradients` data fetch (lines 131-142): take the
next batch of the local iterator; on `StopIteration` rebuild the iterator
from a fresh (reshuffled) epoch and take that epoch's first batch.  The
external collaborators are parameters of the model: `fresh` is the
reshuffled epoch a restart would deliver (`iter(get_data_loader(..)[0])`)
and `gradOf` the Model's forward/backward computation on one batch.
Returns the computed gradients and the remaining iterator. -/
def computeGradients {α β : Type} (gradOf : α → β) (fresh : List α) (it : List α) :
    Except String (β × List α) :=
  match it with
  | b :: rest => Except.ok (gradOf b, rest)
  | [] =>
    match fresh with
    | b :: rest => Except.ok (gradOf b, rest)
    | [] => Except.error "StopIteration"

/-! Basic facts about the per-worker counters. -/

theorem length_incr (cs : List Nat) (v : Nat) : (incr cs v).length = cs.length := by
  simp [incr]

theorem getCount_incr (cs : List Nat) (v w : Nat) (hv : v < cs.length) :
    getCount (incr cs v) w = getCount cs w + (if v = w then 1 else 0) := by
  induction cs generalizing v w with
  | nil => simp at hv
  | cons c rest ih =>
    cases v with
    | zero =>
      cases w with
      | zero => simp [incr, getCount]
      | succ w => simp [incr, getCount]
    | succ v =>
      cases w with
      | zero => simp [incr, getCount]
      | succ w =>
        have hv2 : v < rest.length := by simpa using hv
        have := ih v w hv2
        simpa [incr, getCount, List.set] using this

theorem getCount_incr_ge (cs : List Nat) (v w : Nat) (hv : cs.length ≤ v) :
    getCount (incr cs v) w = getCount cs w := by
  have : cs.set v (getCount cs v + 1) = cs := List.set_eq_of_length_le hv
  simp [incr, this]

theorem sum_incr (cs : List Nat) (v : Nat) (hv : v < cs.length) :
    (incr cs v).sum = cs.sum + 1 := by
  induction cs generalizing v with
  | nil => simp at hv
  | cons c rest ih =>
    cases v with
    | zero => simp [incr, getCount]; omega
    | succ v =>
      have hv2 : v < rest.length := by simpa using hv
      have := ih v hv2
      simp [incr, getCount, List.set] at this ⊢
      omega

theorem getCount_mem (cs : List Nat) (w : Nat) (hw : w < cs.length) :
    getCount cs w ∈ cs := by
  induction cs generalizing w with
  | nil => simp at hw
  | cons c rest ih =>
    cases w with
    | zero => simp [getCount]
    | succ w =>
      have : getCount rest w ∈ rest := ih w (by simpa using hw)
      simp [getCount] at this ⊢
      exact Or.inr this

theorem mem_getCount (cs : List Nat) (c : Nat) (hc : c ∈ cs) :
    ∃ w, w < cs.length ∧ getCount cs w = c := by
  induction cs with
  | nil => simp at hc
  | cons d rest ih =>
    rcases List.mem_cons.1 hc with h | h
    · exact ⟨0, by simp [getCount, h]⟩
    · rcases ih h with ⟨w, hw, hg⟩
      exact ⟨w + 1, by simpa using hw, by simpa [getCount] using hg⟩

theorem minCount_le (cs : List Nat) (c : Nat) (hc : c ∈ cs) : minCount cs ≤ c := by
  induction cs with
  | nil => simp at hc
  | cons d rest ih =>
    cases rest with
    | nil =>
      have : c = d := by simpa using hc
      simp [minCount, this]
    | cons e rest2 =>
      simp only [minCount]
      rcases List.mem_cons.1 hc with h | h
      · subst h; exact min_le_left _ _
      · exact le_trans (min_le_right _ _) (ih h)

theorem minCount_mem (cs : List Nat) (h : cs ≠ []) : minCount cs ∈ cs := by
  induction cs with
  | nil => simp at h
  | cons d rest ih =>
    cases rest with
    | nil => simp [minCount]
    | cons e rest2 =>
      have hm := ih (by simp)
      simp only [minCount]
      rcases Nat.le_total d (minCount (e :: rest2)) with hle | hle
      · rw [min_eq_left hle]; simp
      · rw [min_eq_right hle]; exact List.mem_cons_of_mem _ hm

theorem le_maxCount (cs : List Nat) (c : Nat) (hc : c ∈ cs) : c ≤ maxCount cs := by
  induction cs with
  | nil => simp at hc
  | cons d rest ih =>
    cases rest with
    | nil =>
      have : c = d := by simpa using hc
      simp [maxCount, this]
    | cons e rest2 =>
      simp only [maxCount]
      rcases List.mem_cons.1 hc with h | h
      · subst h; exact le_max_left _ _
      · exact le_trans (ih h) (le_max_right _ _)

theorem maxCount_mem (cs : List Nat) (h : cs ≠ []) : maxCount cs ∈ cs := by
  induction cs with
  | nil => simp at h
  | cons d rest ih =>
    cases rest with
    | nil => simp [maxCount]
    | cons e rest2 =>
      have hm := ih (by simp)
      simp only [maxCount]
      rcases Nat.le_total d (maxCount (e :: rest2)) with hle | hle
      · rw [max_eq_right hle]; exact List.mem_cons_of_mem _ hm
      · rw [max_eq_left hle]; simp

theorem minCount_mono (cs ds : List Nat) (hlen : cs.length = ds.length)
    (hle : ∀ w, w < cs.length → getCount cs w ≤ getCount ds w) :
    minCount cs ≤ minCount ds := by
  cases ds with
  | nil =>
    have : cs = [] := List.length_eq_zero.1 (by simp [hlen])
    simp [this, minCount]
  | cons d rest =>
    have hne : (d :: rest) ≠ ([] : List Nat) := by simp
    rcases mem_getCount _ _ (minCount_mem (d :: rest) hne) with ⟨w, hw, hg⟩
    have hw2 : w < cs.length := by omega
    calc minCount cs ≤ getCount cs w := minCount_le _ _ (getCount_mem _ _ hw2)
      _ ≤ getCount (d :: rest) w := hle w hw2
      _ = minCount (d :: rest) := hg

/-- The staleness test in arithmetic form. -/
theorem usable_iff (S : Nat) (cs : List Nat) (minc : Nat) (h : Handle) :
    usable S cs minc h = true ↔ getCount cs h.wid ≤ minc + S := by
  simp only [usable, decide_eq_true_eq]
  omega

/-! Facts about the classification loop. -/

theorem classifyLoop_perm (S : Nat) (cs : List Nat) (minc : Nat) :
    ∀ (hs : List Handle) (q : Nat),
      ((classifyLoop S cs minc q hs).1 ++
        ((classifyLoop S cs minc q hs).2.1 ++ (classifyLoop S cs minc q hs).2.2)).Perm hs := by
  intro hs
  induction hs with
  | nil => intro q; cases q <;> simp [classifyLoop]
  | cons h rest ih =>
    intro q
    cases q with
    | zero => simp [classifyLoop]
    | succ q =>
      by_cases hu : usable S cs minc h = true
      · simpa [classifyLoop, hu] using (ih q).cons h
      · have hperm := (ih (q + 1)).cons h
        simp only [classifyLoop, hu, if_false, Bool.false_eq_true]
        refine List.Perm.trans ?_ hperm
        exact List.perm_middle

theorem classifyLoop_used_subset (S : Nat) (cs : List Nat) (minc : Nat) :
    ∀ (hs : List Handle) (q : Nat) (g : Handle),
      g ∈ (classifyLoop S cs minc q hs).1 → g ∈ hs ∧ usable S cs minc g = true := by
  intro hs
  induction hs with
  | nil => intro q g hg; cases q <;> simp [classifyLoop] at hg
  | cons h rest ih =>
    intro q g hg
    cases q with
    | zero => simp [classifyLoop] at hg
    | succ q =>
      by_cases hu : usable S cs minc h = true
      · simp only [classifyLoop, hu, if_true, List.mem_cons] at hg
        rcases hg with rfl | hg
        · exact ⟨by simp, hu⟩
        · rcases ih q g hg with ⟨hm, hus⟩
          exact ⟨by simp [hm], hus⟩
      · simp only [classifyLoop, hu, if_false, Bool.false_eq_true] at hg
        rcases ih (q + 1) g hg with ⟨hm, hus⟩
        exact ⟨by simp [hm], hus⟩

theorem classifyLoop_unus_subset (S : Nat) (cs : List Nat) (minc : Nat) :
    ∀ (hs : List Handle) (q : Nat) (g : Handle),
      g ∈ (classifyLoop S cs minc q hs).2.1 → g ∈ hs ∧ usable S cs minc g = false := by
  intro hs
  induction hs with
  | nil => intro q g hg; cases q <;> simp [classifyLoop] at hg
  | cons h rest ih =>
    intro q g hg
    cases q with
    | zero => simp [classifyLoop] at hg
    | succ q =>
      by_cases hu : usable S cs minc h = true
      · simp only [classifyLoop, hu, if_true] at hg
        rcases ih q g hg with ⟨hm, hus⟩
        exact ⟨by simp [hm], hus⟩
      · simp only [classifyLoop, hu, if_false, Bool.false_eq_true, List.mem_cons] at hg
        rcases hg with rfl | hg
        · exact ⟨by simp, by simpa using hu⟩
        · rcases ih (q + 1) g hg with ⟨hm, hus⟩
          exact ⟨by simp [hm], hus⟩

theorem classifyLoop_all_usable (S : Nat) (cs : List Nat) (minc : Nat)
    (hs : List Handle) (q : Nat) (hall : ∀ g ∈ hs, usable S cs minc g = true) :
    (classifyLoop S cs minc q hs).2.1 = [] := by
  rcases h : (classifyLoop S cs minc q hs).2.1 with _ | ⟨g, l⟩
  · rfl
  · have hg : g ∈ (classifyLoop S cs minc q hs).2.1 := by simp [h]
    rcases classifyLoop_unus_subset S cs minc hs q g hg with ⟨hm, hf⟩
    rw [hall g hm] at hf
    cases hf

/-! Facts about the re-dispatch of used workers. -/

theorem dispatch_length (cs : List Nat) (u : List Handle) :
    ∀ nid, (dispatch cs nid u).length = u.length := by
  induction u with
  | nil => intro nid; simp [dispatch]
  | cons h rest ih => intro nid; simp [dispatch, ih]

theorem dispatch_mem (cs : List Nat) (u : List Handle) :
    ∀ nid g, g ∈ dispatch cs nid u →
      ∃ h ∈ u, g.wid = h.wid ∧ g.dc = getCount cs h.wid + 1 ∧
        nid ≤ g.hid ∧ g.hid < nid + u.length := by
  induction u with
  | nil => intro nid g hg; simp [dispatch] at hg
  | cons h rest ih =>
    intro nid g hg
    simp only [dispatch, List.mem_cons] at hg
    rcases hg with rfl | hg
    · exact ⟨h, by simp, rfl, rfl, le_refl _, by simp⟩
    · rcases ih (nid + 1) g hg with ⟨h2, hm, hw, hd, hlo, hhi⟩
      exact ⟨h2, by simp [hm], hw, hd, by omega, by simp; omega⟩

theorem dispatch_map_wid (cs : List Nat) (u : List Handle) :
    ∀ nid, (dispatch cs nid u).map Handle.wid = u.map Handle.wid := by
  induction u with
  | nil => intro nid; simp [dispatch]
  | cons h rest ih => intro nid; simp [dispatch, ih]

theorem dispatch_hid_nodup (cs : List Nat) (u : List Handle) :
    ∀ nid, ((dispatch cs nid u).map Handle.hid).Nodup := by
  induction u with
  | nil => intro nid; simp [dispatch]
  | cons h rest ih =>
    intro nid
    simp only [dispatch, List.map_cons, List.nodup_cons]
    refine ⟨?_, ih (nid + 1)⟩
    intro hmem
    rcases List.mem_map.1 hmem with ⟨g, hg, hid⟩
    rcases dispatch_mem cs rest (nid + 1) g hg with ⟨_, _, _, _, hlo, _⟩
    omega

/-! Fold of the per-worker increments of line 199. -/

theorem foldl_incr_length (u : List Handle) (cs : List Nat) :
    (u.foldl (fun cs g => incr cs g.wid) cs).length = cs.length := by
  induction u generalizing cs with
  | nil => simp
  | cons g rest ih => simp [ih, length_incr]

theorem foldl_incr_getCount (u : List Handle) (cs : List Nat)
    (hw : ∀ g ∈ u, g.wid < cs.length) (w : Nat) :
    getCount (u.foldl (fun cs g => incr cs g.wid) cs) w
      = getCount cs w + (u.map Handle.wid).count w := by
  induction u generalizing cs with
  | nil => simp
  | cons g rest ih =>
    have hg : g.wid < cs.length := hw g (by simp)
    have hrest : ∀ g2 ∈ rest, g2.wid < (incr cs g.wid).length := by
      intro g2 hg2; rw [length_incr]; exact hw g2 (by simp [hg2])
    rw [List.foldl_cons, ih _ hrest, getCount_incr cs g.wid w hg]
    simp only [List.map_cons, List.count_cons]
    by_cases hgw : g.wid = w <;> simp [hgw] <;> omega

theorem foldl_incr_sum (u : List Handle) (cs : List Nat)
    (hw : ∀ g ∈ u, g.wid < cs.length) :
    (u.foldl (fun cs g => incr cs g.wid) cs).sum = cs.sum + u.length := by
  induction u generalizing cs with
  | nil => simp
  | cons g rest ih =>
    have hg : g.wid < cs.length := hw g (by simp)
    have hrest : ∀ g2 ∈ rest, g2.wid < (incr cs g.wid).length := by
      intro g2 hg2; rw [length_incr]; exact hw g2 (by simp [hg2])
    rw [List.foldl_cons, ih _ hrest, sum_incr cs g.wid hg]
    simp; omega

/-! Inversion of a successful round. -/

theorem roundStep_some {M S : Nat} {obs : List Handle} {st st2 : Sched}
    (h : roundStep M S obs st = some st2) :
    ∃ u x l,
      obs.Nodup ∧ (∀ g ∈ obs, g ∈ st.pending) ∧
      classifyLoop S st.counts (minCount st.counts) M obs = (u, x, l) ∧
      u.length = M ∧
      st2.counts = u.foldl (fun cs g => incr cs g.wid) st.counts ∧
      st2.pending = st.pending.filter (fun g => decide (g ∉ u ∧ g ∉ x))
                      ++ x ++ dispatch st.counts st.nextId u ∧
      st2.nextId = st.nextId + u.length ∧
      st2.history = st.history ++ [⟨u, x⟩] := by
  rcases hcl : classifyLoop S st.counts (minCount st.counts) M obs with ⟨u, r2⟩
  rcases r2 with ⟨x, l⟩
  refine ⟨u, x, l, ?_⟩
  unfold roundStep at h
  simp only [hcl] at h
  split at h
  case isFalse => cases h
  case isTrue hval =>
    split at h
    case isFalse => cases h
    case isTrue hM =>
      have he := Option.some.inj h
      refine ⟨hval.1, hval.2, rfl, hM, ?_, ?_, ?_, ?_⟩ <;> rw [← he]

/-- The inductive invariant of the training loop: counters are one per
worker; the `gradients` dict holds at most one ref per worker, with
distinct, previously unseen ref ids, and the ghost dispatch count of every
pending ref agrees with its worker's current count; ids already consumed
by `apply_gradients` are distinct and never re-enter the dict; and no
count exceeds the minimum by more than `S + 1`. -/
structure Inv (S n : Nat) (st : Sched) : Prop where
  clen : st.counts.length = n
  pwid : ∀ g ∈ st.pending, g.wid < n
  pwidNodup : (st.pending.map Handle.wid).Nodup
  pdc : ∀ g ∈ st.pending, g.dc = getCount st.counts g.wid
  phidLt : ∀ g ∈ st.pending, g.hid < st.nextId
  phidNodup : (st.pending.map Handle.hid).Nodup
  uhidLt : ∀ i ∈ usedIds st, i < st.nextId
  uhidNodup : (usedIds st).Nodup
  uhidDisj : ∀ i ∈ usedIds st, i ∉ st.pending.map Handle.hid
  skew : ∀ c ∈ st.counts, c ≤ minCount st.counts + S + 1

theorem getCount_replicate (n w : Nat) : getCount (List.replicate n 0) w = 0 := by
  induction n generalizing w with
  | zero => simp [getCount]
  | succ n ih =>
    cases w with
    | zero => simp [getCount, List.replicate]
    | succ w => simpa [getCount, List.replicate] using ih w

theorem map_id_nat (l : List Nat) : l.map (fun i => i) = l := by
  induction l with
  | nil => rfl
  | cons a l ih => simp [ih]

theorem initSched_map_wid (n : Nat) :
    ((initSched n).pending).map Handle.wid = List.range n := by
  simp only [initSched, List.map_map]
  exact map_id_nat _

theorem initSched_map_hid (n : Nat) :
    ((initSched n).pending).map Handle.hid = List.range n := by
  simp only [initSched, List.map_map]
  exact map_id_nat _

theorem inv_init (S n : Nat) : Inv S n (initSched n) := by
  refine ⟨by simp [initSched], ?_, ?_, ?_, ?_, ?_, ?_, ?_, ?_, ?_⟩
  · intro g hg
    simp only [initSched, List.mem_map, List.mem_range] at hg
    rcases hg with ⟨i, hi, rfl⟩
    exact hi
  · rw [initSched_map_wid]; exact List.nodup_range n
  · intro g hg
    simp only [initSched, List.mem_map, List.mem_range] at hg
    rcases hg with ⟨i, hi, rfl⟩
    simp [getCount_replicate, initSched]
  · intro g hg
    simp only [initSched, List.mem_map, List.mem_range] at hg
    rcases hg with ⟨i, hi, rfl⟩
    exact hi
  · rw [initSched_map_hid]; exact List.nodup_range n
  · intro i hi; simp [usedIds, initSched] at hi
  · simp [usedIds, initSched]
  · intro i hi; simp [usedIds, initSched] at hi
  · intro c hc
    have : c = 0 := List.eq_of_mem_replicate hc
    omega

theorem usedIds_of_history {st2 st : Sched} {u x : List Handle}
    (hh : st2.history = st.history ++ [⟨u, x⟩]) :
    usedIds st2 = usedIds st ++ u.map Handle.hid := by
  simp [usedIds, hh]

/-- Preservation of the invariant by one round of the training loop. -/
theorem inv_step {M S n : Nat} {obs : List Handle} {st st2 : Sched}
    (hinv : Inv S n st) (h : roundStep M S obs st = some st2) : Inv S n st2 := by
  rcases roundStep_some h with ⟨u, x, l, hnd, hsub, hcl, hM, hcounts, hpending, hnextid, hhist⟩
  -- classification facts
  have hperm : (u ++ (x ++ l)).Perm obs := by
    have hp := classifyLoop_perm S st.counts (minCount st.counts) obs M
    rw [hcl] at hp
    simpa using hp
  have huxlnd : (u ++ (x ++ l)).Nodup := hperm.symm.nodup hnd
  have hund : u.Nodup := (List.nodup_append.1 huxlnd).1
  have hxnd : x.Nodup := (List.nodup_append.1 (List.nodup_append.1 huxlnd).2.1).1
  have hdisjux : u.Disjoint x := by
    intro a ha1 ha2
    exact (List.nodup_append.1 huxlnd).2.2 ha1 (List.mem_append.2 (Or.inl ha2))
  have huse : ∀ g ∈ u, g ∈ obs ∧ usable S st.counts (minCount st.counts) g = true := by
    intro g hg
    have h0 := classifyLoop_used_subset S st.counts (minCount st.counts) obs M g
    rw [hcl] at h0
    exact h0 hg
  have hxse : ∀ g ∈ x, g ∈ obs ∧ usable S st.counts (minCount st.counts) g = false := by
    intro g hg
    have h0 := classifyLoop_unus_subset S st.counts (minCount st.counts) obs M g
    rw [hcl] at h0
    exact h0 hg
  have hup : ∀ g ∈ u, g ∈ st.pending := fun g hg => hsub g (huse g hg).1
  have hxp : ∀ g ∈ x, g ∈ st.pending := fun g hg => hsub g (hxse g hg).1
  have hwinj : ∀ a ∈ st.pending, ∀ b ∈ st.pending, a.wid = b.wid → a = b :=
    fun a ha b hb => List.inj_on_of_nodup_map hinv.pwidNodup ha hb
  have hhinj : ∀ a ∈ st.pending, ∀ b ∈ st.pending, a.hid = b.hid → a = b :=
    fun a ha b hb => List.inj_on_of_nodup_map hinv.phidNodup ha hb
  have huwnd : (u.map Handle.wid).Nodup :=
    List.Nodup.map_on (fun a ha b hb => hwinj a (hup a ha) b (hup b hb)) hund
  have huhnd : (u.map Handle.hid).Nodup :=
    List.Nodup.map_on (fun a ha b hb => hhinj a (hup a ha) b (hup b hb)) hund
  have hxwnd : (x.map Handle.wid).Nodup :=
    List.Nodup.map_on (fun a ha b hb => hwinj a (hxp a ha) b (hxp b hb)) hxnd
  have hxhnd : (x.map Handle.hid).Nodup :=
    List.Nodup.map_on (fun a ha b hb => hhinj a (hxp a ha) b (hxp b hb)) hxnd
  have huw : ∀ g ∈ u, g.wid < st.counts.length := by
    intro g hg; rw [hinv.clen]; exact hinv.pwid g (hup g hg)
  -- membership in the filtered part of the new dict
  have hfp : ∀ g, g ∈ st.pending.filter (fun g => decide (g ∉ u ∧ g ∉ x)) ↔
      g ∈ st.pending ∧ g ∉ u ∧ g ∉ x := by
    intro g; simp [List.mem_filter]
  -- new counts
  have hC2len : (u.foldl (fun cs g => incr cs g.wid) st.counts).length = st.counts.length :=
    foldl_incr_length u st.counts
  have hC2get : ∀ w, getCount (u.foldl (fun cs g => incr cs g.wid) st.counts) w
      = getCount st.counts w + (u.map Handle.wid).count w :=
    foldl_incr_getCount u st.counts huw
  have hC2same : ∀ g ∈ st.pending, g ∉ u →
      getCount (u.foldl (fun cs g => incr cs g.wid) st.counts) g.wid
        = getCount st.counts g.wid := by
    intro g hgp hgu
    rw [hC2get g.wid]
    have : g.wid ∉ u.map Handle.wid := by
      intro hmem
      rcases List.mem_map.1 hmem with ⟨g2, hg2, hwid⟩
      exact hgu (hwinj g2 (hup g2 hg2) g hgp hwid ▸ hg2)
    rw [List.count_eq_zero.2 this]
    omega
  have hminmono : minCount st.counts ≤
      minCount (u.foldl (fun cs g => incr cs g.wid) st.counts) := by
    refine minCount_mono _ _ hC2len.symm ?_
    intro w hw
    rw [hC2get w]
    omega
  -- dispatch part facts
  have hdmem := dispatch_mem st.counts u st.nextId
  constructor
  -- clen
  · rw [hcounts, hC2len]; exact hinv.clen
  -- pwid
  · intro g hg
    rw [hpending] at hg
    simp only [List.mem_append] at hg
    rcases hg with (hg | hg) | hg
    · exact hinv.pwid g ((hfp g).1 hg).1
    · exact hinv.pwid g (hxp g hg)
    · rcases hdmem g hg with ⟨g2, hg2, hwid, _, _, _⟩
      rw [hwid]; exact hinv.pwid g2 (hup g2 hg2)
  -- pwidNodup
  · rw [hpending, List.map_append, List.map_append, List.nodup_append, List.nodup_append]
    refine ⟨⟨?_, hxwnd, ?_⟩, ?_, ?_⟩
    · exact ((List.filter_sublist st.pending).map Handle.wid).nodup hinv.pwidNodup
    · -- filtered wids disjoint from x wids
      intro a ha1 ha2
      rcases List.mem_map.1 ha1 with ⟨g0, hg0, rfl⟩
      rcases (hfp g0).1 hg0 with ⟨hg0p, hg0u, hg0x⟩
      rcases List.mem_map.1 ha2 with ⟨g1, hg1, hw⟩
      exact hg0x (hwinj g1 (hxp g1 hg1) g0 hg0p hw ▸ hg1)
    · rw [dispatch_map_wid]; exact huwnd
    · -- filtered/x wids disjoint from dispatched wids (= used wids)
      intro a ha1 ha2
      rw [dispatch_map_wid] at ha2
      rcases List.mem_map.1 ha2 with ⟨g2, hg2, hw⟩
      rcases List.mem_append.1 ha1 with ha1 | ha1
      · rcases List.mem_map.1 ha1 with ⟨g0, hg0, rfl⟩
        rcases (hfp g0).1 hg0 with ⟨hg0p, hg0u, hg0x⟩
        exact hg0u (hwinj g2 (hup g2 hg2) g0 hg0p hw ▸ hg2)
      · rcases List.mem_map.1 ha1 with ⟨g1, hg1, rfl⟩
        exact hdisjux hg2 (hwinj g2 (hup g2 hg2) g1 (hxp g1 hg1) hw ▸ hg1)
  -- pdc
  · intro g hg
    rw [hpending] at hg
    rw [hcounts]
    simp only [List.mem_append] at hg
    rcases hg with (hg | hg) | hg
    · rcases (hfp g).1 hg with ⟨hgp, hgu, _⟩
      rw [hC2same g hgp hgu]
      exact hinv.pdc g hgp
    · have hgu : g ∉ u := fun hc => hdisjux hc hg
      rw [hC2same g (hxp g hg) hgu]
      exact hinv.pdc g (hxp g hg)
    · rcases hdmem g hg with ⟨g2, hg2, hwid, hdc, _, _⟩
      rw [hdc, hwid, hC2get g2.wid]
      have : (u.map Handle.wid).count g2.wid = 1 :=
        List.count_eq_one_of_mem huwnd (List.mem_map.2 ⟨g2, hg2, rfl⟩)
      omega
  -- phidLt
  · intro g hg
    rw [hpending] at hg
    rw [hnextid]
    simp only [List.mem_append] at hg
    rcases hg with (hg | hg) | hg
    · have := hinv.phidLt g ((hfp g).1 hg).1
      omega
    · have := hinv.phidLt g (hxp g hg)
      omega
    · rcases hdmem g hg with ⟨_, _, _, _, _, hhi⟩
      omega
  -- phidNodup
  · rw [hpending, List.map_append, List.map_append, List.nodup_append, List.nodup_append]
    refine ⟨⟨?_, hxhnd, ?_⟩, ?_, ?_⟩
    · exact ((List.filter_sublist st.pending).map Handle.hid).nodup hinv.phidNodup
    · -- filtered ids disjoint from x ids
      intro a ha1 ha2
      rcases List.mem_map.1 ha1 with ⟨g0, hg0, rfl⟩
      rcases (hfp g0).1 hg0 with ⟨hg0p, hg0u, hg0x⟩
      rcases List.mem_map.1 ha2 with ⟨g1, hg1, hw⟩
      exact hg0x (hhinj g1 (hxp g1 hg1) g0 hg0p hw ▸ hg1)
    · exact dispatch_hid_nodup st.counts u st.nextId
    · -- old ids are all below the ids of freshly dispatched requests
      intro a ha1 ha2
      rcases List.mem_map.1 ha2 with ⟨g2, hg2, hw⟩
      rcases hdmem g2 hg2 with ⟨_, _, _, _, hlo, _⟩
      rcases List.mem_append.1 ha1 with ha1 | ha1
      · rcases List.mem_map.1 ha1 with ⟨g0, hg0, rfl⟩
        have := hinv.phidLt g0 ((hfp g0).1 hg0).1
        omega
      · rcases List.mem_map.1 ha1 with ⟨g1, hg1, rfl⟩
        have := hinv.phidLt g1 (hxp g1 hg1)
        omega
  -- uhidLt
  · intro i hi
    rw [usedIds_of_history hhist] at hi
    rw [hnextid]
    rcases List.mem_append.1 hi with hi | hi
    · have := hinv.uhidLt i hi
      omega
    · rcases List.mem_map.1 hi with ⟨g2, hg2, rfl⟩
      have := hinv.phidLt g2 (hup g2 hg2)
      omega
  -- uhidNodup
  · rw [usedIds_of_history hhist, List.nodup_append]
    refine ⟨hinv.uhidNodup, huhnd, ?_⟩
    intro a ha1 ha2
    rcases List.mem_map.1 ha2 with ⟨g2, hg2, rfl⟩
    exact hinv.uhidDisj _ ha1 (List.mem_map.2 ⟨g2, hup g2 hg2, rfl⟩)
  -- uhidDisj
  · intro i hi hmem
    rw [usedIds_of_history hhist] at hi
    have hi2 : i ∈ usedIds st ∨ i ∈ u.map Handle.hid := List.mem_append.1 hi
    rw [hpending, List.map_append, List.map_append] at hmem
    rcases List.mem_append.1 hmem with hmem01 | hmem2
    · rcases List.mem_append.1 hmem01 with hmem0 | hmem1
      · -- i among filtered ids
        rcases List.mem_map.1 hmem0 with ⟨g0, hg0, rfl⟩
        rcases (hfp g0).1 hg0 with ⟨hg0p, hg0u, hg0x⟩
        rcases hi2 with hi2 | hi2
        · exact hinv.uhidDisj _ hi2 (List.mem_map.2 ⟨g0, hg0p, rfl⟩)
        · rcases List.mem_map.1 hi2 with ⟨g2, hg2, hw⟩
          exact hg0u (hhinj g2 (hup g2 hg2) g0 hg0p hw ▸ hg2)
      · -- i among x ids
        rcases List.mem_map.1 hmem1 with ⟨g1, hg1, rfl⟩
        rcases hi2 with hi2 | hi2
        · exact hinv.uhidDisj _ hi2 (List.mem_map.2 ⟨g1, hxp g1 hg1, rfl⟩)
        · rcases List.mem_map.1 hi2 with ⟨g2, hg2, hw⟩
          exact hdisjux hg2 (hhinj g2 (hup g2 hg2) g1 (hxp g1 hg1) hw ▸ hg1)
    · -- i among dispatched ids: these are fresh
      rcases List.mem_map.1 hmem2 with ⟨g2, hg2, rfl⟩
      rcases hdmem g2 hg2 with ⟨_, _, _, _, hlo, _⟩
      rcases hi2 with hi2 | hi2
      · have := hinv.uhidLt _ hi2
        omega
      · rcases List.mem_map.1 hi2 with ⟨g3, hg3, hw⟩
        have := hinv.phidLt g3 (hup g3 hg3)
        omega
  -- skew
  · rw [hcounts]
    intro c hc
    rcases mem_getCount _ _ hc with ⟨w, hw, rfl⟩
    rw [hC2len] at hw
    rw [hC2get w]
    have hbase : getCount st.counts w + (u.map Handle.wid).count w
        ≤ minCount st.counts + S + 1 := by
      by_cases hwu : w ∈ u.map Handle.wid
      · rcases List.mem_map.1 hwu with ⟨g2, hg2, rfl⟩
        have husable := (huse g2 hg2).2
        rw [usable_iff] at husable
        have : (u.map Handle.wid).count g2.wid = 1 :=
          List.count_eq_one_of_mem huwnd (List.mem_map.2 ⟨g2, hg2, rfl⟩)
        omega
      · rw [List.count_eq_zero.2 hwu]
        have := hinv.skew _ (getCount_mem st.counts w hw)
        omega
    omega

/-- Every reachable state satisfies the invariant. -/
theorem reach_inv {M S n k : Nat} {st : Sched} (h : Reach M S n k st) : Inv S n st := by
  induction h with
  | init => exact inv_init S n
  | step _ hstep ih => exact inv_step ih hstep

/-- Each round admits exactly `M` contributions and increments exactly
`M` per-worker counts by one, so after `k` rounds the counts sum to
`M * k`. -/
theorem reach_sum {M S n k : Nat} {st : Sched} (h : Reach M S n k st) :
    st.counts.sum = M * k := by
  induction h with
  | init => simp [initSched]
  | @step k st obs st2 hr hstep ih =>
    have hinv := reach_inv hr
    rcases roundStep_some hstep with
      ⟨u, x, l, hnd, hsub, hcl, hM, hcounts, hpending, hnextid, hhist⟩
    have hup : ∀ g ∈ u, g ∈ st.pending := by
      intro g hg
      have h0 := classifyLoop_used_subset S st.counts (minCount st.counts) obs M g
      rw [hcl] at h0
      exact hsub g (h0 hg).1
    have huw : ∀ g ∈ u, g.wid < st.counts.length := by
      intro g hg; rw [hinv.clen]; exact hinv.pwid g (hup g hg)
    rw [hcounts, foldl_incr_sum u st.counts huw, ih, hM]
    ring

/-- One round of the one-worker, quorum-1, tolerance-0 system. -/
theorem wit_step (k : Nat) :
    roundStep 1 0 [⟨k, 0, k⟩] (witState k) = some (witState (k + 1)) := by
  have hu : usable 0 [k] (minCount [k]) ⟨k, 0, k⟩ = true := by
    rw [usable_iff]
    simp [getCount, minCount]
  simp only [roundStep, witState, classifyLoop, hu, if_true]
  norm_num
  constructor
  · simp [incr, getCount]
  refine ⟨?_, ?_⟩
  · simp [dispatch, getCount]
  · rw [List.range_succ]
    simp

/-- The closed-form states are reachable. -/
theorem wit_reach (k : Nat) : Reach 1 0 1 k (witState k) := by
  induction k with
  | zero =>
    have h0 : witState 0 = initSched 1 := by decide
    rw [h0]
    exact Reach.init
  | succ k ih => exact Reach.step ih (wit_step k)

/-- C1: in every reachable state of the scheduler — any number of
workers, any quorum size `M`, any staleness tolerance `S ≥ 0`, before and
after every round — the spread of per-worker update counts is at most
`S + 1`: `max(update_count) - min(update_count) ≤ S + 1`. -/
theorem skew_bound (M S n k : Nat) (st : Sched) (h : Reach M S n k st) :
    maxCount st.counts - minCount st.counts ≤ S + 1 := by
  have hinv := reach_inv h
  by_cases hemp : st.counts = []
  · rw [hemp]
    simp [maxCount, minCount]
  · have hmax := maxCount_mem st.counts hemp
    have := hinv.skew _ hmax
    omega

/-- Witness for C1 at a concrete reachable state. -/
theorem skew_bound_wit :
    maxCount (witState 5).counts - minCount (witState 5).counts ≤ 0 + 1 :=
  skew_bound 1 0 1 5 (witState 5) (wit_reach 5)

/-- C10: the driver executes `(500 * num_workers) / M` rounds
(`total_iterations`, line 171), each admitting exactly `M` contributions
and incrementing `M` per-worker counts by one; a state reached after that
many rounds has its update counts summing to `M * ((500 * n) / M)`,
independently of the staleness tolerance `S`. -/
theorem total_update_sum (M S n : Nat) (st : Sched)
    (h : Reach M S n (totalIterations n M) st) :
    st.counts.sum = M * totalIterations n M :=
  reach_sum h

/-- Witness for C10: the one-worker quorum-1 run after its full
`total_iterations = 500` rounds. -/
theorem total_update_sum_wit :
    (witState (totalIterations 1 1)).counts.sum = 1 * totalIterations 1 1 :=
  total_update_sum 1 0 1 (witState (totalIterations 1 1)) (wit_reach (totalIterations 1 1))

/-- C2 (amended): every contribution is admitted into at most one
aggregate — the gradient ids passed to `apply_gradients` over a whole run
are pairwise distinct, so none is double-counted.  (The other half of the
original claim is false: a contribution classified unusable is re-queued,
not permanently discarded — see the counterexample.) -/
theorem contribution_single_use (M S n k : Nat) (st : Sched) (h : Reach M S n k st) :
    (usedIds st).Nodup :=
  (reach_inv h).uhidNodup

/-- Witness for C2 at a concrete reachable state with two applies. -/
theorem contribution_single_use_wit : (usedIds (witState 2)).Nodup :=
  contribution_single_use 1 0 1 2 (witState 2) (wit_reach 2)

/-- C2 counterexample: in a valid 2-worker run with quorum 1 and
tolerance 0, the contribution with ref id 2 is classified unusable in
round 1 and is nevertheless admitted into round 2's aggregate — unusable
contributions are re-queued into the pending dict (line 193), not
permanently discarded. -/
theorem contribution_requeue_cex :
    run 1 0 2 cexRounds = some cexFinal ∧
    (⟨2, 0, 1⟩ : Handle) ∈ (cexFinal.history.getD 1 default).unusable ∧
    (⟨2, 0, 1⟩ : Handle) ∈ (cexFinal.history.getD 2 default).used := by
  decide

/-- A duplicate-free list of `n` naturals below `n` covers all of them. -/
theorem nodup_full_range (l : List Nat) (n : Nat) (hnd : l.Nodup) (hlen : l.length = n)
    (hb : ∀ w ∈ l, w < n) : ∀ w, w < n → w ∈ l := by
  intro w hw
  have hsubs : l.toFinset ⊆ Finset.range n := by
    intro a ha
    exact Finset.mem_range.2 (hb a (List.mem_toFinset.1 ha))
  have hcard : (Finset.range n).card ≤ l.toFinset.card := by
    rw [List.toFinset_card_of_nodup hnd, hlen, Finset.card_range]
  have heqf : l.toFinset = Finset.range n := Finset.eq_of_subset_of_card_le hsubs hcard
  have : w ∈ l.toFinset := by rw [heqf]; exact Finset.mem_range.2 hw
  exact List.mem_toFinset.1 this

/-- Core of the synchronous special case `S = 0`, `M = n`: from a state
with equal counts, a round classifies nothing unusable, uses one
contribution from each of the `n` workers, and leaves the counts equal
again. -/
theorem sync_round_core {n : Nat} {obs : List Handle} {st st2 : Sched}
    (hinv : Inv 0 n st) (heq : ∀ a ∈ st.counts, ∀ b ∈ st.counts, a = b)
    (hstep : roundStep n 0 obs st = some st2) :
    ∃ u x l,
      classifyLoop 0 st.counts (minCount st.counts) n obs = (u, x, l) ∧
      st2.history = st.history ++ [⟨u, x⟩] ∧
      u.length = n ∧ (u.map Handle.wid).Nodup ∧
      (∀ w, w < n → w ∈ u.map Handle.wid) ∧ x = [] ∧
      (∀ a ∈ st2.counts, ∀ b ∈ st2.counts, a = b) := by
  rcases roundStep_some hstep with
    ⟨u, x, l, hnd, hsub, hcl, hM, hcounts, hpending, hnextid, hhist⟩
  have hlen : st.counts.length = n := hinv.clen
  have hallp : ∀ g ∈ st.pending, usable 0 st.counts (minCount st.counts) g = true := by
    intro g hg
    have hwid : g.wid < n := hinv.pwid g hg
    have hne : st.counts ≠ [] := by
      intro hc; rw [hc] at hlen; simp at hlen; omega
    have hmem : getCount st.counts g.wid ∈ st.counts := getCount_mem _ _ (by omega)
    have hminmem : minCount st.counts ∈ st.counts := minCount_mem _ hne
    rw [usable_iff]
    have := heq _ hmem _ hminmem
    omega
  have hx : x = [] := by
    have h0 := classifyLoop_all_usable 0 st.counts (minCount st.counts) obs n
      (fun g hg => hallp g (hsub g hg))
    rw [hcl] at h0
    exact h0
  have hperm : (u ++ (x ++ l)).Perm obs := by
    have hp := classifyLoop_perm 0 st.counts (minCount st.counts) obs n
    rw [hcl] at hp
    simpa using hp
  have hund : u.Nodup := (List.nodup_append.1 (hperm.symm.nodup hnd)).1
  have hup : ∀ g ∈ u, g ∈ st.pending := by
    intro g hg
    have h0 := classifyLoop_used_subset 0 st.counts (minCount st.counts) obs n g
    rw [hcl] at h0
    exact hsub g (h0 hg).1
  have huwnd : (u.map Handle.wid).Nodup :=
    List.Nodup.map_on
      (fun a ha b hb => List.inj_on_of_nodup_map hinv.pwidNodup (hup a ha) (hup b hb)) hund
  have huwb : ∀ w ∈ u.map Handle.wid, w < n := by
    intro w hw
    rcases List.mem_map.1 hw with ⟨g, hg, rfl⟩
    exact hinv.pwid g (hup g hg)
  have hfull : ∀ w, w < n → w ∈ u.map Handle.wid :=
    nodup_full_range _ n huwnd (by rw [List.length_map]; exact hM) huwb
  refine ⟨u, x, l, hcl, hhist, hM, huwnd, hfull, hx, ?_⟩
  rw [hcounts]
  have huw : ∀ g ∈ u, g.wid < st.counts.length := by
    intro g hg; rw [hlen]; exact hinv.pwid g (hup g hg)
  intro a ha b hb
  rcases mem_getCount _ _ ha with ⟨wa, hwa, rfl⟩
  rcases mem_getCount _ _ hb with ⟨wb, hwb, rfl⟩
  rw [foldl_incr_length] at hwa hwb
  rw [foldl_incr_getCount u st.counts huw wa, foldl_incr_getCount u st.counts huw wb]
  have hca : (u.map Handle.wid).count wa = 1 :=
    List.count_eq_one_of_mem huwnd (hfull wa (by omega))
  have hcb : (u.map Handle.wid).count wb = 1 :=
    List.count_eq_one_of_mem huwnd (hfull wb (by omega))
  have := heq _ (getCount_mem st.counts wa hwa) _ (getCount_mem st.counts wb hwb)
  omega

/-- In the synchronous configuration all reachable states have equal
per-worker counts. -/
theorem reach_eqCounts {n k : Nat} {st : Sched} (h : Reach n 0 n k st) :
    ∀ a ∈ st.counts, ∀ b ∈ st.counts, a = b := by
  induction h with
  | init =>
    intro a ha b hb
    have ha2 : a = 0 := List.eq_of_mem_replicate (by simpa [initSched] using ha)
    have hb2 : b = 0 := List.eq_of_mem_replicate (by simpa [initSched] using hb)
    rw [ha2, hb2]
  | @step k st obs st2 hr hstep ih =>
    rcases sync_round_core (reach_inv hr) ih hstep with
      ⟨u, x, l, _, _, _, _, _, _, hst2⟩
    exact hst2

/-- C5: with staleness tolerance `S = 0` and quorum `M = num_workers`,
every round admits exactly one fresh contribution from every worker —
`n` usable contributions with pairwise-distinct workers covering all `n`
workers and no contribution classified unusable — and after every round
all per-worker update counts are equal. -/
theorem sync_barrier (n k : Nat) (st st2 : Sched) (obs : List Handle) (log : RoundLog)
    (hr : Reach n 0 n k st)
    (hstep : roundStep n 0 obs st = some st2)
    (hlog : st2.history.getLast? = some log) :
    log.used.length = n ∧
    (log.used.map Handle.wid).Nodup ∧
    (∀ w, w < n → w ∈ log.used.map Handle.wid) ∧
    log.unusable = [] ∧
    (∀ a ∈ st2.counts, ∀ b ∈ st2.counts, a = b) := by
  rcases sync_round_core (reach_inv hr) (reach_eqCounts hr) hstep with
    ⟨u, x, l, hcl, hhist, hM, hnd, hfull, hx, heq2⟩
  have hlog2 : log = ⟨u, x⟩ := by
    rw [hhist, List.getLast?_concat] at hlog
    exact (Option.some.inj hlog).symm
  subst hlog2
  exact ⟨hM, hnd, hfull, hx, heq2⟩

/-- Witness for C5: the first synchronous round of the one-worker
system. -/
theorem sync_barrier_wit :
    (⟨[⟨0, 0, 0⟩], []⟩ : RoundLog).used.length = 1 ∧
    ((⟨[⟨0, 0, 0⟩], []⟩ : RoundLog).used.map Handle.wid).Nodup ∧
    (∀ w, w < 1 → w ∈ (⟨[⟨0, 0, 0⟩], []⟩ : RoundLog).used.map Handle.wid) ∧
    (⟨[⟨0, 0, 0⟩], []⟩ : RoundLog).unusable = [] ∧
    (∀ a ∈ (witState 1).counts, ∀ b ∈ (witState 1).counts, a = b) :=
  sync_barrier 1 0 (witState 0) (witState 1) [⟨0, 0, 0⟩] ⟨[⟨0, 0, 0⟩], []⟩
    (wit_reach 0) (wit_step 0) (by decide)

/-- Classification in one round is the staleness predicate on the
dispatch-recorded count of the handle, evaluated against the round-start
minimum. -/
theorem round_classification {M S n : Nat} {obs : List Handle} {st st2 : Sched}
    {log : RoundLog}
    (hinv : Inv S n st)
    (hstep : roundStep M S obs st = some st2)
    (hlog : st2.history.getLast? = some log) :
    ∀ g, g ∈ log.used ∨ g ∈ log.unusable →
      (g ∈ log.used ↔ (g.dc : Int) - (minCount st.counts : Int) ≤ (S : Int)) := by
  rcases roundStep_some hstep with ⟨u, x, l, hnd, hsub, hcl, hM, _, _, _, hhist⟩
  have hlog2 : log = ⟨u, x⟩ := by
    rw [hhist, List.getLast?_concat] at hlog
    exact (Option.some.inj hlog).symm
  subst hlog2
  intro g hg
  have hgp : g ∈ st.pending := by
    rcases hg with hg | hg
    · have h0 := classifyLoop_used_subset S st.counts (minCount st.counts) obs M g
      rw [hcl] at h0
      exact hsub g (h0 hg).1
    · have h0 := classifyLoop_unus_subset S st.counts (minCount st.counts) obs M g
      rw [hcl] at h0
      exact hsub g (h0 hg).1
  have hdc : g.dc = getCount st.counts g.wid := hinv.pdc g hgp
  constructor
  · intro hgu
    have h0 := classifyLoop_used_subset S st.counts (minCount st.counts) obs M g
    rw [hcl] at h0
    have := (h0 hgu).2
    rw [usable_iff] at this
    omega
  · intro hcond
    rcases hg with hg | hg
    · exact hg
    · exfalso
      have h0 := classifyLoop_unus_subset S st.counts (minCount st.counts) obs M g
      rw [hcl] at h0
      have hf := (h0 hg).2
      have hnle : ¬ (getCount st.counts g.wid ≤ minCount st.counts + S) := by
        intro hc
        rw [← usable_iff (h := g)] at hc
        rw [hf] at hc
        cases hc
      omega

/-- C8: within a round, whether a completed contribution is classified
usable or unusable is a function only of its worker's update count as
recorded at dispatch (the ghost `dc` field of the handle) and of the
minimum update count taken at the start of the round; it does not depend
on the order in which completions are observed — two rounds taken from
the same state with different observation orders classify every
contribution they both observe identically. -/
theorem classification_det (M S n k : Nat) (st st1 st2 : Sched)
    (obs1 obs2 : List Handle) (log1 log2 : RoundLog)
    (hr : Reach M S n k st)
    (h1 : roundStep M S obs1 st = some st1)
    (h2 : roundStep M S obs2 st = some st2)
    (hl1 : st1.history.getLast? = some log1)
    (hl2 : st2.history.getLast? = some log2) :
    (∀ g, g ∈ log1.used ∨ g ∈ log1.unusable →
       (g ∈ log1.used ↔ (g.dc : Int) - (minCount st.counts : Int) ≤ (S : Int))) ∧
    (∀ g, g ∈ log2.used ∨ g ∈ log2.unusable →
       (g ∈ log2.used ↔ (g.dc : Int) - (minCount st.counts : Int) ≤ (S : Int))) ∧
    (∀ g, g ∈ log1.used ∨ g ∈ log1.unusable → g ∈ log2.used ∨ g ∈ log2.unusable →
       (g ∈ log1.used ↔ g ∈ log2.used)) := by
  have hinv := reach_inv hr
  refine ⟨round_classification hinv h1 hl1, round_classification hinv h2 hl2, ?_⟩
  intro g hg1 hg2
  rw [round_classification hinv h1 hl1 g hg1, round_classification hinv h2 hl2 g hg2]

/-- Witness for C8 on the first round of the one-worker system. -/
theorem classification_det_wit :
    (⟨0, 0, 0⟩ : Handle) ∈ (⟨[⟨0, 0, 0⟩], []⟩ : RoundLog).used ↔
      ((⟨0, 0, 0⟩ : Handle).dc : Int) - (minCount (witState 0).counts : Int) ≤
        ((0 : Nat) : Int) :=
  (classification_det 1 0 1 0 (witState 0) (witState 1) (witState 1)
      [⟨0, 0, 0⟩] [⟨0, 0, 0⟩] ⟨[⟨0, 0, 0⟩], []⟩ ⟨[⟨0, 0, 0⟩], []⟩
      (wit_reach 0) (wit_step 0) (wit_step 0) (by decide) (by decide)).1
    ⟨0, 0, 0⟩ (Or.inl (by decide))

/-! Facts about the parameter server. -/

theorem stackAgg_error (isMean : Bool) (col : List (Option Tensor)) (e : PSError)
    (h : stackAgg isMean col = Except.error e) : e = PSError.numpyError := by
  rcases col with _ | ⟨g0, _ | ⟨g1, col3⟩⟩
  · simp only [stackAgg] at h
    exact (Except.error.inj h).symm
  · rcases g0 with _ | t
    · simp only [stackAgg] at h
      split at h
      · exact (Except.error.inj h).symm
      · cases h
    · simp only [stackAgg] at h
      cases h
  · simp only [stackAgg] at h
    split at h
    · exact (Except.error.inj h).symm
    · split at h
      · cases h
      · exact (Except.error.inj h).symm

theorem stackAgg_none_error (isMean : Bool) (col : List (Option Tensor))
    (hlen : 2 ≤ col.length) (hnone : col.any (fun g => g.isNone) = true) :
    stackAgg isMean col = Except.error PSError.numpyError := by
  rcases col with _ | ⟨g0, _ | ⟨g1, col3⟩⟩
  · simp at hlen
  · simp at hlen
  · simp only [stackAgg]
    rw [if_pos hnone]

theorem mapExcept_error {α β : Type} (f : α → Except PSError β)
    (hf : ∀ a e2, f a = Except.error e2 → e2 = PSError.numpyError) :
    ∀ (l : List α) (e : PSError),
      mapExcept f l = Except.error e → e = PSError.numpyError := by
  intro l
  induction l with
  | nil => intro e h; cases h
  | cons a l ih =>
    intro e h
    unfold mapExcept at h
    cases hfa : f a with
    | error e2 =>
      rw [hfa] at h
      have he := Except.error.inj h
      rw [← he]
      exact hf a e2 hfa
    | ok b =>
      rw [hfa] at h
      cases hrec : mapExcept f l with
      | error e3 =>
        rw [hrec] at h
        have he := Except.error.inj h
        rw [← he]
        exact ih e3 hrec
      | ok bs => rw [hrec] at h; cases h

theorem mapExcept_ok_forall {α β : Type} (f : α → Except PSError β) :
    ∀ (l : List α) (bs : List β), mapExcept f l = Except.ok bs →
      ∀ a ∈ l, ∃ b, f a = Except.ok b := by
  intro l
  induction l with
  | nil => intro bs h a ha; simp at ha
  | cons a0 l ih =>
    intro bs h a ha
    unfold mapExcept at h
    cases hfa : f a0 with
    | error e => rw [hfa] at h; cases h
    | ok b0 =>
      rw [hfa] at h
      cases hrec : mapExcept f l with
      | error e => rw [hrec] at h; cases h
      | ok bs0 =>
        rcases List.mem_cons.1 ha with rfl | ha2
        · exact ⟨b0, hfa⟩
        · exact ih bs0 hrec a ha2

theorem aggregate_error_valid (rule : String) (hr : rule ∈ validGradRules)
    (gs : List Payload) (e : PSError) (h : aggregate rule gs = Except.error e) :
    e = PSError.numpyError := by
  have hcases : rule = "sum" ∨ rule = "mean" := by simpa [validGradRules] using hr
  rcases hcases with rfl | rfl
  · rw [aggregate, if_pos rfl] at h
    exact mapExcept_error _ (fun a e2 => stackAgg_error false a e2) _ _ h
  · rw [aggregate, if_neg (by decide), if_pos rfl] at h
    exact mapExcept_error _ (fun a e2 => stackAgg_error true a e2) _ _ h

theorem psInit_valid (lr : Rat) (gr ur : String) (p0 : List Tensor)
    (h : ur ∈ validUpdateRules) : psInit lr gr ur p0 = Except.ok ⟨gr, ur, lr, p0, 0⟩ := by
  have hor : ur = "sgd" ∨ ur = "adam" ∨ ur = "adagrad" := by
    simpa [validUpdateRules] using h
  rw [psInit, if_pos hor]

/-- C3 (amended): an unknown update rule fails at construction with the
configuration error, but an unknown aggregation rule does not — it is
accepted at construction and its configuration error is raised only by
`apply`; with both names valid, construction succeeds and apply can never
raise a configuration error (any failure it reports is a numpy
aggregation error). -/
theorem config_validation (lr : Rat) (gr ur : String) (p0 : List Tensor) :
    (ur ∉ validUpdateRules →
       psInit lr gr ur p0 = Except.error (PSError.invalidUpdateRule ur)) ∧
    (ur ∈ validUpdateRules →
       psInit lr gr ur p0 = Except.ok ⟨gr, ur, lr, p0, 0⟩ ∧
       (gr ∉ validGradRules → ∀ sa sg gs,
          psApply sa sg ⟨gr, ur, lr, p0, 0⟩ gs =
            Except.error (PSError.invalidGradRule gr)) ∧
       (gr ∈ validGradRules → ∀ sa sg gs e,
          psApply sa sg ⟨gr, ur, lr, p0, 0⟩ gs = Except.error e →
            e = PSError.numpyError)) := by
  refine ⟨?_, ?_⟩
  · intro h
    have hne : ¬(ur = "sgd" ∨ ur = "adam" ∨ ur = "adagrad") := by
      simpa [validUpdateRules] using h
    rw [psInit, if_neg hne]
  · intro h
    refine ⟨psInit_valid lr gr ur p0 h, ?_, ?_⟩
    · intro hgr sa sg gs
      have h1 : gr ≠ "sum" := fun hc => hgr (by simp [validGradRules, hc])
      have h2 : gr ≠ "mean" := fun hc => hgr (by simp [validGradRules, hc])
      have haggr : aggregate gr gs = Except.error (PSError.invalidGradRule gr) := by
        rw [aggregate, if_neg h1, if_neg h2]
      unfold psApply
      rw [haggr]
    · intro hgr sa sg gs e happ
      unfold psApply at happ
      cases haggr : aggregate gr gs with
      | error e2 =>
        rw [haggr] at happ
        simp only [Except.error.injEq] at happ
        rw [← happ]
        exact aggregate_error_valid gr hgr gs e2 haggr
      | ok summed =>
        rw [haggr] at happ
        simp at happ

/-- C3 counterexample: construction with the unknown aggregation rule
"median" succeeds — no configuration error at construction time, contrary
to the claim; the error only surfaces at the first apply call. -/
theorem config_validation_cex :
    psInit 1 "median" "sgd" [[10]] = Except.ok ⟨"median", "sgd", 1, [[10]], 0⟩ ∧
    psApply (fun _ p _ => p) (fun _ p _ => p) ⟨"median", "sgd", 1, [[10]], 0⟩
        [[some [1]]]
      = Except.error (PSError.invalidGradRule "median") := by
  exact ⟨rfl, rfl⟩

/-- Witness for C3 (amended): an unknown update rule is rejected at
construction, and a fully valid pair constructs fine. -/
theorem config_validation_wit :
    psInit 1 "sum" "momentum" [[1]] = Except.error (PSError.invalidUpdateRule "momentum") ∧
    psInit 1 "sum" "sgd" [[1]] = Except.ok ⟨"sum", "sgd", 1, [[1]], 0⟩ :=
  ⟨(config_validation 1 "sum" "momentum" [[1]]).1 (by decide),
   ((config_validation 1 "sum" "sgd" [[1]]).2 (by decide)).1⟩

/-- C4: every successful apply call advances the Version by exactly one
(and pairs it with the single new parameter snapshot produced by that
call), so the Version observed across a run is strictly increasing. -/
theorem version_increment
    (sa sg : Rat → List Tensor → List (Option Tensor) → List Tensor)
    (ps ps2 : PSState) (gs : List Payload)
    (h : psApply sa sg ps gs = Except.ok ps2) :
    ps2.version = ps.version + 1 := by
  unfold psApply at h
  cases haggr : aggregate ps.gradRule gs with
  | error e => rw [haggr] at h; cases h
  | ok summed =>
    rw [haggr] at h
    simp only [Except.ok.injEq] at h
    rw [← h]

/-- Witness for C4 on a concrete successful apply. -/
theorem version_increment_wit :
    (⟨"sum", "sgd", 1, [[(8 : Rat)]], 1⟩ : PSState).version
      = (⟨"sum", "sgd", 1, [[(10 : Rat)]], 0⟩ : PSState).version + 1 :=
  version_increment (fun _ p _ => p) (fun _ p _ => p)
    ⟨"sum", "sgd", 1, [[(10 : Rat)]], 0⟩ ⟨"sum", "sgd", 1, [[(8 : Rat)]], 1⟩
    [[some [1]], [some [1]]]
    (by norm_num [psApply, aggregate, columns, column, minLen, stackAgg,
          mapExcept, sumTensors, sgdStep])

theorem aggregate_single_sum (g : Payload) : aggregate "sum" [g] = Except.ok g := by
  rw [aggregate, if_pos rfl]
  induction g with
  | nil => rfl
  | cons a rest ih =>
    have hcols : columns [a :: rest] = [a] :: columns [rest] := by
      unfold columns column minLen
      rw [List.length_cons, List.range_succ_eq_map]
      simp [List.map_map, Function.comp]
    rw [hcols]
    unfold mapExcept
    cases a with
    | none =>
      have hsa : stackAgg false [none] = Except.ok none := rfl
      rw [hsa, ih]
    | some t =>
      have hsa : stackAgg false [some t] = Except.ok (some t) := rfl
      rw [hsa, ih]

theorem sgdStep_getD (lr : Rat) :
    ∀ (ps : List Tensor) (g : Payload) (i : Nat), g.getD i none = none →
      (sgdStep lr ps g).getD i [] = ps.getD i [] := by
  intro ps
  induction ps with
  | nil =>
    intro g i h
    cases g with
    | nil => rfl
    | cons g0 gr => rfl
  | cons p ps ih =>
    intro g i h
    cases g with
    | nil => rfl
    | cons g0 gr =>
      cases i with
      | zero =>
        have h0 : g0 = none := by simpa using h
        subst h0
        rfl
      | succ i =>
        have h2 : gr.getD i none = none := by simpa using h
        simpa [sgdStep] using ih gr i h2

/-- C6 (amended): numpy's aggregation does not skip absent markers — if
two or more contributions are aggregated and any of them is absent at a
tensor position in range, `apply` fails with a numpy error instead of
excluding that contribution; only when a single contribution is
aggregated (with `sum`) does an absent marker propagate, and then that
tensor of the Parameters is indeed left unchanged by the round. -/
theorem absent_marker (sa sg : Rat → List Tensor → List (Option Tensor) → List Tensor)
    (ps : PSState) :
    (∀ gs i, 2 ≤ gs.length → i < minLen gs →
        (column gs i).any (fun g => g.isNone) = true →
        ∃ e, psApply sa sg ps gs = Except.error e) ∧
    (ps.gradRule = "sum" → ps.updateRule = "sgd" →
      ∀ g ps2, psApply sa sg ps [g] = Except.ok ps2 →
        ∀ i, g.getD i none = none →
          ps2.params.getD i [] = ps.params.getD i []) := by
  constructor
  · intro gs i h2 hi hnone
    cases happ : psApply sa sg ps gs with
    | error e => exact ⟨e, rfl⟩
    | ok ps2 =>
      exfalso
      unfold psApply at happ
      cases haggr : aggregate ps.gradRule gs with
      | error e => rw [haggr] at happ; cases happ
      | ok summed =>
        have hcolmem : column gs i ∈ columns gs :=
          List.mem_map.2 ⟨i, List.mem_range.2 hi, rfl⟩
        have hcollen : 2 ≤ (column gs i).length := by
          rw [column, List.length_map]
          exact h2
        unfold aggregate at haggr
        by_cases hs : ps.gradRule = "sum"
        · rw [if_pos hs] at haggr
          rcases mapExcept_ok_forall _ _ _ haggr _ hcolmem with ⟨b, hb⟩
          rw [stackAgg_none_error false (column gs i) hcollen hnone] at hb
          cases hb
        · rw [if_neg hs] at haggr
          by_cases hm : ps.gradRule = "mean"
          · rw [if_pos hm] at haggr
            rcases mapExcept_ok_forall _ _ _ haggr _ hcolmem with ⟨b, hb⟩
            rw [stackAgg_none_error true (column gs i) hcollen hnone] at hb
            cases hb
          · rw [if_neg hm] at haggr
            cases haggr
  · intro hgr hur g ps2 happ i hno
    unfold psApply at happ
    rw [hgr, aggregate_single_sum g, hur] at happ
    simp only [if_pos rfl, Except.ok.injEq] at happ
    rw [← happ]
    exact sgdStep_getD ps.lr ps.params g i hno

/-- C6 counterexample: with two contributions, an absent marker at a
tensor position makes `apply` fail with a numpy error — the absent
contribution is not excluded from the combination as the claim states
(which would have produced parameters `[[9]]`). -/
theorem absent_marker_cex :
    psApply (fun _ p _ => p) (fun _ p _ => p) ⟨"sum", "sgd", 1, [[(10 : Rat)]], 0⟩
        [[some [1]], [none]]
      = Except.error PSError.numpyError := by
  rfl

/-- Witness for C6 (amended): a single contribution absent on parameter 1
leaves that parameter unchanged. -/
theorem absent_marker_wit :
    ([[(9 : Rat)], [(5 : Rat)]] : List Tensor).getD 1 []
      = ([[(10 : Rat)], [(5 : Rat)]] : List Tensor).getD 1 [] :=
  (absent_marker (fun _ p _ => p) (fun _ p _ => p)
      ⟨"sum", "sgd", 1, [[(10 : Rat)], [(5 : Rat)]], 0⟩).2
    rfl rfl [some [1], none] ⟨"sum", "sgd", 1, [[(9 : Rat)], [(5 : Rat)]], 1⟩
    (by norm_num [psApply, aggregate, columns, column, minLen, stackAgg,
          mapExcept, sumTensors, sgdStep]) 1 (by rfl)

/-- C7: deterministic scenario — 2 workers each contributing the constant
gradient `1.0`, `sum` aggregation, plain descent (`sgd`) with learning
rate `1.0`, quorum 2, starting scalar parameter `10.0`: the parameter
trace after rounds 1-3 is `[8.0, 6.0, 4.0]`, each round subtracting
`lr * sum = 2.0` (for every possible semantics of the unused Adam and
Adagrad update rules). -/
theorem deterministic_trace
    (sa sg : Rat → List Tensor → List (Option Tensor) → List Tensor) :
    (psInit 1 "sum" "sgd" [[10]]).bind
      (fun ps0 => psTrace sa sg ps0
        [[[some [1]], [some [1]]],
         [[some [1]], [some [1]]],
         [[some [1]], [some [1]]]])
      = Except.ok [[[8]], [[6]], [[4]]] := by
  norm_num [psInit, psTrace, psApply, aggregate, columns, column, minLen, stackAgg,
    mapExcept, sumTensors, sgdStep, Except.bind]

/-- C9: the worker's batch fetch never surfaces end-of-data: as long as
the external DataSource honours its restart contract (a reshuffled epoch
is non-empty), `compute_gradients` always returns a gradient, and on an
exhausted iterator it restarts and computes from the first batch of the
fresh epoch. -/
theorem compute_never_exhausts {α β : Type} (gradOf : α → β) (fresh it : List α)
    (hne : fresh ≠ []) :
    (∃ g it2, computeGradients gradOf fresh it = Except.ok (g, it2)) ∧
    (it = [] → computeGradients gradOf fresh it =
       Except.ok (gradOf (fresh.head hne), fresh.tail)) := by
  cases it with
  | cons b rest =>
    refine ⟨⟨gradOf b, rest, rfl⟩, ?_⟩
    intro hfalse
    cases hfalse
  | nil =>
    cases fresh with
    | nil => exact absurd rfl hne
    | cons b rest => exact ⟨⟨gradOf b, rest, rfl⟩, fun _ => rfl⟩

/-- Witness for C9: empty local iterator, fresh epoch `[5, 6]`. -/
theorem compute_never_exhausts_wit :
    (∃ g it2, computeGradients (fun b => b + 1) [5, 6] ([] : List Nat)
        = Except.ok (g, it2)) ∧
    (([] : List Nat) = [] → computeGradients (fun b => b + 1) [5, 6] []
        = Except.ok (6, [6])) :=
  compute_never_exhausts (fun b => b + 1) [5, 6] [] (by decide)

end DistSGD
